import Mathlib

/-!
Verification of the simplicial-set-embedding layout optimizer in
cpp/src/umap/simpl_set_embed/algo.h.

The development is a shallow embedding: each device/host function of the
source is translated into a Lean function over exact rationals (ℚ stands
for the C floating-point values, ℤ for C int). The C math-library power
function appearing inside the gradient coefficients is taken as an explicit
function parameter powfn, since its numerics are external to this code.
Device buffers are modeled by their contents (lists of rationals); where the
source compares buffer pointers for identity, buffers are modeled by a
numeric identity.
-/

namespace UMAPAlgo

/-- Squared Euclidean distance between two rows, as computed by rdist
(algo.h lines 51-55): sum over the components of the squared difference. -/
def rdist (X Y : List ℚ) : ℚ :=
  (List.zipWith (fun x y => (x - y) ^ 2) X Y).sum

/-- Clamp a value into a lower and upper bound, as computed by clip
(algo.h lines 96-103). -/
def clip (val lb ub : ℚ) : ℚ :=
  if val > ub then ub
  else if val < lb then lb
  else val

/-- Repulsive gradient coefficient (algo.h lines 108-114):
2*gamma*b / ((0.001 + d2) * (a * d2^b + 1)), with the math-library pow
passed in as powfn. -/
def repulsive_grad (powfn : ℚ → ℚ → ℚ) (dist_squared gamma a b : ℚ) : ℚ :=
  (2 * gamma * b) / ((1 / 1000 + dist_squared) * (a * powfn dist_squared b + 1))

/-- Attractive gradient coefficient (algo.h lines 119-125):
-2*a*b*d2^(b-1) / (a * d2^b + 1), with the math-library pow passed in
as powfn. -/
def attractive_grad (powfn : ℚ → ℚ → ℚ) (dist_squared a b : ℚ) : ℚ :=
  (-2 * a * b * powfn dist_squared (b - 1)) / (a * powfn dist_squared b + 1)

/-- Per-dimension attractive gradient contribution of the kernel
(algo.h lines 169-170): clip(coeff * (current[d] - other[d]), -4, 4).
This is the quantity multiplied by alpha and atomically added. -/
def attractive_grad_d (coeff cd od : ℚ) : ℚ :=
  clip (coeff * (cd - od)) (-4) 4

/-- Per-dimension repulsive gradient contribution of the kernel
(algo.h lines 209-216): clip(coeff * (current[d] - negative_sample[d]), -4, 4)
when the coefficient is positive, and the constant fallback 4.0 otherwise.
This is the quantity multiplied by alpha and atomically added. -/
def repulsive_grad_d (coeff cd nd : ℚ) : ℚ :=
  if coeff > 0 then clip (coeff * (cd - nd)) (-4) 4 else 4

/-- Epoch schedule builder make_epochs_per_sample (algo.h lines 66-91):
compute the maximum weight with a fold (thrust max_element over the array,
starting from the first element), then map each weight w to
n_epochs / (n_epochs * (w / max)) when that denominator is positive and to
the sentinel -1 otherwise. -/
def make_epochs_per_sample (weights : List ℚ) (n_epochs : ℕ) : List ℚ :=
  let weights_max := weights.foldl max (weights.headD 0)
  weights.map (fun input =>
    let v := (n_epochs : ℚ) * (input / weights_max)
    if v > 0 then (n_epochs : ℚ) / v else -1)

/-- Weight-pruning step of the launcher (algo.h lines 299-323): compute the
maximum of the values, then overwrite each value strictly below
max / n_epochs with 0, leaving the others unchanged. -/
def prune_weights (vals : List ℚ) (n_epochs : ℕ) : List ℚ :=
  let mx := vals.foldl max (vals.headD 0)
  vals.map (fun input => if input < mx / (n_epochs : ℚ) then 0 else input)

/-- Sparse coordinate-format edge list: parallel arrays of head indices,
tail indices and weights, as consumed by the launcher. -/
structure COO where
  rows : List ℤ
  cols : List ℤ
  vals : List ℚ
deriving DecidableEq, Repr

/-- Compaction service coo_remove_zeros (algo.h line 326): drop every
(row, col, val) record whose value is 0, keeping the rest in order. -/
def coo_remove_zeros (c : COO) : COO :=
  let triples := (c.rows.zip (c.cols.zip c.vals)).filter (fun p => p.2.2 != 0)
  { rows := triples.map (fun p => p.1)
    cols := triples.map (fun p => p.2.1)
    vals := triples.map (fun p => p.2.2) }

/-- State of the caller-supplied COO after the launcher runs
(algo.h lines 315-323): the unaryOp writes the pruned values back into
in->vals() in place; the rows and cols arrays are never written, and no
later step of the launcher, driver or kernel writes to the input COO. -/
def launcher_input_after (incoo : COO) (n_epochs : ℕ) : COO :=
  { rows := incoo.rows
    cols := incoo.cols
    vals := prune_weights incoo.vals n_epochs }

/-- Value of the driver variable alpha at the top of loop iteration e of
optimize_layout (algo.h lines 246, 266-282): initialized to initial_alpha
before the loop, and reassigned to initial_alpha * (1 - n / n_epochs) at the
end of iteration n. This is the learning rate the kernel launch of epoch e
receives. -/
def alpha_used (initial_alpha : ℚ) (n_epochs : ℕ) : ℕ → ℚ
  | 0 => initial_alpha
  | n + 1 => initial_alpha * (1 - (n : ℚ) / (n_epochs : ℚ))

/-- Candidate vertex index of a negative-sampling draw
(algo.h line 193): int t = r % tail_n. The C++ remainder on int truncates
toward zero, which Int.tmod models. -/
def negative_sample_candidate (r tail_n : ℤ) : ℤ :=
  Int.tmod r tail_n

/-- C truncation-toward-zero conversion from a floating value to int,
as in the cast int(...) of algo.h line 182: floor for non-negative values,
ceiling for negative ones. -/
def truncToZero (q : ℚ) : ℤ :=
  if 0 ≤ q then ⌊q⌋ else ⌈q⌉

/-- Per-edge scheduling state of the kernel: epoch_of_next_sample and
epoch_of_next_negative_sample for one edge. -/
structure EdgeSched where
  eons : ℚ
  eonns : ℚ
deriving DecidableEq, Repr

/-- Scheduling effect of one kernel epoch on one edge
(algo.h lines 145, 179-183, 221-222): if epoch_of_next_sample <= epoch, the
edge fires; epoch_of_next_sample advances by epochs_per_sample, the number
of negative samples is int((epoch - epoch_of_next_negative_sample) /
epochs_per_negative_sample), and epoch_of_next_negative_sample advances by
that count times epochs_per_negative_sample. Otherwise nothing changes. -/
def kernel_sched_step (eps epns : ℚ) (epoch : ℕ) (s : EdgeSched) : EdgeSched :=
  if s.eons ≤ (epoch : ℚ) then
    let n_neg : ℤ := truncToZero (((epoch : ℚ) - s.eonns) / epns)
    { eons := s.eons + eps, eonns := s.eonns + (n_neg : ℚ) * epns }
  else s

/-- Per-edge scheduling state after the driver has run epochs 0..k-1
(algo.h lines 255-261 initialize both counters to the per-sample values;
lines 266-282 run the kernel for epochs 0, 1, ...). -/
def sched_after (eps epns : ℚ) : ℕ → EdgeSched
  | 0 => { eons := eps, eonns := epns }
  | k + 1 => kernel_sched_step eps epns k (sched_after eps epns k)

/-- Attractive update of the kernel for one edge event
(algo.h lines 149-177): given the current and other rows, compute the
squared distance, the attractive coefficient (0 when the distance is not
positive), and return the updated pair of rows: every dimension of current
gets grad_d * alpha added; the other row gets -grad_d * alpha added in each
dimension when move_other holds, and is untouched otherwise. -/
def attractive_update (powfn : ℚ → ℚ → ℚ) (a b alpha : ℚ) (move_other : Bool)
    (current other : List ℚ) : List ℚ × List ℚ :=
  let dist_squared := rdist current other
  let coeff := if dist_squared > 0 then attractive_grad powfn dist_squared a b else 0
  (List.zipWith (fun c o => c + attractive_grad_d coeff c o * alpha) current other,
   if move_other then
     List.zipWith (fun c o => o + -(attractive_grad_d coeff c o) * alpha) current other
   else other)

/-- Effect of one negative-sampling draw on the current row
(algo.h lines 193-218): with candidate index t and candidate row neg,
compute the squared distance; when it is not positive and t equals the
edge head index j, the draw is skipped (continue) and the row is unchanged;
otherwise the repulsive coefficient is the repulsive gradient when the
distance is positive and 0 when it is not, and every dimension of current
gets repulsive_grad_d coeff current[d] neg[d] times alpha added. -/
def negative_sample_step (powfn : ℚ → ℚ → ℚ) (a b gamma alpha : ℚ) (j t : ℤ)
    (current neg : List ℚ) : List ℚ :=
  let dist_squared := rdist current neg
  if dist_squared ≤ 0 ∧ j = t then current
  else
    let coeff := if dist_squared > 0 then repulsive_grad powfn dist_squared gamma a b else 0
    List.zipWith (fun c n => c + repulsive_grad_d coeff c n * alpha) current neg

/-- Fit-or-transform decision of optimize_layout (algo.h line 244):
move_other is the pointer-identity comparison of the head and tail
embedding buffers, modeled by their buffer identities. -/
def optimize_layout_move_other (head_embedding tail_embedding : ℕ) : Bool :=
  head_embedding == tail_embedding

/-- Value of move_other for an optimize_layout call issued by the launcher
(algo.h lines 340-343): the launcher passes the single buffer named
embedding as both the head and the tail embedding argument. -/
def launcher_move_other (embedding : ℕ) : Bool :=
  optimize_layout_move_other embedding embedding

/-- C10: the negative-sampling candidate index r % tail_n is NOT within
[0, tail_n) for every integer r: at r = -1 and tail_n = 5 the C++ truncated
remainder yields -1, a negative row index, so the subsequent read of the
tail embedding row is out of bounds. -/
theorem negative_candidate_oob :
    negative_sample_candidate (-1) 5 = -1 ∧
      ¬ (0 ≤ negative_sample_candidate (-1) 5) := by
  constructor
  · rfl
  · decide

/-- C6: every per-dimension gradient contribution the kernel applies to the
embedding, before multiplication by the learning rate alpha — the attractive
contribution clip(coeff * (cd - od), -4, 4), and the repulsive contribution
(the same clipped product, or the constant 4.0 fallback) — lies within
[-4, 4]. -/
theorem grad_contributions_clipped (coeff cd od : ℚ) :
    (-4 ≤ attractive_grad_d coeff cd od ∧ attractive_grad_d coeff cd od ≤ 4) ∧
      (-4 ≤ repulsive_grad_d coeff cd od ∧ repulsive_grad_d coeff cd od ≤ 4) := by
  unfold attractive_grad_d repulsive_grad_d clip
  constructor
  · split
    · constructor <;> norm_num
    · split
      · constructor <;> norm_num
      · constructor <;> linarith
  · split
    · split
      · constructor <;> norm_num
      · split
        · constructor <;> norm_num
        · constructor <;> linarith
    · constructor <;> norm_num

/-- C1 counterexample: with initial_alpha = 1 and n_epochs = 2, the learning
rate the kernel receives at epoch 1 is 1 (the anneal at the end of epoch 0
uses the finished index 0), not 1 * (1 - 1/2) as the claim states. -/
theorem alpha_schedule_claim_false :
    alpha_used 1 2 1 = 1 ∧ alpha_used 1 2 1 ≠ 1 * (1 - (1 : ℚ) / (2 : ℚ)) := by
  constructor
  · show (1 : ℚ) * (1 - (0 : ℚ) / (2 : ℚ)) = 1
    norm_num
  · show (1 : ℚ) * (1 - (0 : ℚ) / (2 : ℚ)) ≠ 1 * (1 - (1 : ℚ) / (2 : ℚ))
    norm_num

/-- C1 amended: with n_epochs > 0 and non-negative initial_alpha, the
learning rate used by the kernel is exactly initial_alpha at epoch 0, equals
initial_alpha * (1 - n/n_epochs) at epoch n+1 (the anneal lags one epoch:
it uses the index of the epoch that just finished), and is monotonically
non-increasing across epochs. -/
theorem alpha_schedule_characterization (ia : ℚ) (N n e1 e2 : ℕ)
    (hia : 0 ≤ ia) (hN : 0 < N) (h12 : e1 ≤ e2) :
    alpha_used ia N 0 = ia ∧
      alpha_used ia N (n + 1) = ia * (1 - (n : ℚ) / (N : ℚ)) ∧
      alpha_used ia N e2 ≤ alpha_used ia N e1 := by
  have hNQ : (0 : ℚ) < (N : ℚ) := by exact_mod_cast hN
  refine ⟨rfl, rfl, ?_⟩
  match e1, e2, h12 with
  | 0, 0, _ => exact le_refl _
  | 0, b + 1, _ =>
    show ia * (1 - (b : ℚ) / (N : ℚ)) ≤ ia
    have hb : (0 : ℚ) ≤ (b : ℚ) / (N : ℚ) := by positivity
    nlinarith
  | a + 1, b + 1, h =>
    show ia * (1 - (b : ℚ) / (N : ℚ)) ≤ ia * (1 - (a : ℚ) / (N : ℚ))
    have hab : (a : ℚ) ≤ (b : ℚ) := by exact_mod_cast Nat.succ_le_succ_iff.mp h
    have hdiv : (a : ℚ) / (N : ℚ) ≤ (b : ℚ) / (N : ℚ) := by gcongr
    nlinarith

/-- C1 witness: the amended schedule theorem applied at initial_alpha = 1,
n_epochs = 2, comparing epochs 1 and 2. -/
theorem alpha_schedule_characterization_witness :
    (0 : ℚ) ≤ 1 ∧ 0 < 2 ∧ 1 ≤ 2 ∧
      (alpha_used 1 2 0 = 1 ∧
        alpha_used 1 2 (0 + 1) = 1 * (1 - (0 : ℚ) / (2 : ℚ)) ∧
        alpha_used 1 2 2 ≤ alpha_used 1 2 1) :=
  ⟨by norm_num, by norm_num, by norm_num,
    alpha_schedule_characterization 1 2 0 1 2 (by norm_num) (by norm_num) (by norm_num)⟩

/-- C2 counterexample: on the weight list [0.01, 0.5, 1.0] with
n_epochs = 100 the threshold is 0.01, and the strictly-less-than comparison
leaves the weight-0.01 edge untouched (0.01 < 0.01 is false): it is not
zeroed, contradicting the claim that it is zeroed and removed. -/
theorem threshold_scenario_claim_false :
    (prune_weights [1/100, 1/2, 1] 100).headD 0 = 1/100 ∧
      ((1 : ℚ)/100 ≠ 0) := by
  constructor
  · norm_num [prune_weights, max_def]
  · norm_num

/-- C2 amended: on the edge list with weights [0.01, 0.5, 1.0] and
n_epochs = 100, the threshold is max/n_epochs = 0.01, and because the
comparison is strictly-less-than the weight-0.01 edge is NOT zeroed: the
pruning leaves all three weights unchanged, and the compaction keeps all
three edges. -/
theorem threshold_scenario_all_survive :
    ([(1 : ℚ)/100, 1/2, 1].foldl max ([(1 : ℚ)/100, 1/2, 1].headD 0)) / (100 : ℚ)
        = 1/100 ∧
      prune_weights [1/100, 1/2, 1] 100 = [1/100, 1/2, 1] ∧
      coo_remove_zeros
          { rows := [0, 1, 2], cols := [1, 2, 0],
            vals := prune_weights [1/100, 1/2, 1] 100 }
        = { rows := [0, 1, 2], cols := [1, 2, 0], vals := [1/100, 1/2, 1] } := by
  refine ⟨by norm_num [max_def], by norm_num [prune_weights, max_def], ?_⟩
  simp only [coo_remove_zeros, prune_weights, List.headD, List.foldl, List.map,
    List.zip, List.zipWith, List.filter_cons, List.filter_nil, bne_iff_ne, ne_eq,
    COO.mk.injEq]
  norm_num [max_def]

/-- Characterization of one kernel scheduling step when the edge fires,
i.e. when epoch_of_next_sample has come due. -/
lemma kernel_sched_step_fired (eps epns : ℚ) (epoch : ℕ) (s : EdgeSched)
    (h : s.eons ≤ (epoch : ℚ)) :
    kernel_sched_step eps epns epoch s =
      { eons := s.eons + eps,
        eonns := s.eonns
          + ((truncToZero (((epoch : ℚ) - s.eonns) / epns) : ℤ) : ℚ) * epns } := by
  unfold kernel_sched_step
  rw [if_pos h]

/-- Characterization of one kernel scheduling step when the edge does not
fire: the state is unchanged. -/
lemma kernel_sched_step_skip (eps epns : ℚ) (epoch : ℕ) (s : EdgeSched)
    (h : ¬ s.eons ≤ (epoch : ℚ)) :
    kernel_sched_step eps epns epoch s = s := by
  unfold kernel_sched_step
  rw [if_neg h]

/-- Invariant of the per-edge scheduling state along the epoch loop:
epoch_of_next_sample never drops below epochs_per_sample, and
epoch_of_next_negative_sample stays below the larger of the current epoch
index and its initial value. Hypotheses reflect the driver and launcher
guarantees: epochs_per_sample is positive (weights are positive after
compaction) and negative_sample_rate is a positive integer. -/
lemma sched_after_invariant (eps : ℚ) (nsr : ℕ) (heps : 0 < eps)
    (hnsr : 1 ≤ nsr) (k : ℕ) :
    eps ≤ (sched_after eps (eps / (nsr : ℚ)) k).eons ∧
      (sched_after eps (eps / (nsr : ℚ)) k).eonns ≤ max (k : ℚ) (eps / (nsr : ℚ)) := by
  have hnsrQ : (1 : ℚ) ≤ (nsr : ℚ) := by exact_mod_cast hnsr
  have hepns_pos : 0 < eps / (nsr : ℚ) := div_pos heps (lt_of_lt_of_le one_pos hnsrQ)
  have hepns_le : eps / (nsr : ℚ) ≤ eps := div_le_self heps.le hnsrQ
  induction k with
  | zero => exact ⟨le_refl _, le_max_right _ _⟩
  | succ k ih =>
    obtain ⟨ih1, ih2⟩ := ih
    have hunf : sched_after eps (eps / (nsr : ℚ)) (k + 1)
        = kernel_sched_step eps (eps / (nsr : ℚ)) k
            (sched_after eps (eps / (nsr : ℚ)) k) := rfl
    set s := sched_after eps (eps / (nsr : ℚ)) k with hs
    by_cases h : s.eons ≤ (k : ℚ)
    · rw [hunf, kernel_sched_step_fired eps (eps / (nsr : ℚ)) k s h]
      have hek : eps / (nsr : ℚ) ≤ (k : ℚ) := le_trans hepns_le (le_trans ih1 h)
      have hsk : s.eonns ≤ (k : ℚ) := by
        have hmx := max_eq_left hek
        rw [hmx] at ih2
        exact ih2
      have hq : (0 : ℚ) ≤ ((k : ℚ) - s.eonns) / (eps / (nsr : ℚ)) :=
        div_nonneg (by linarith) hepns_pos.le
      have htr : truncToZero (((k : ℚ) - s.eonns) / (eps / (nsr : ℚ)))
          = ⌊((k : ℚ) - s.eonns) / (eps / (nsr : ℚ))⌋ := if_pos hq
      constructor
      · show eps ≤ s.eons + eps
        linarith
      · show s.eonns
            + ((truncToZero (((k : ℚ) - s.eonns) / (eps / (nsr : ℚ))) : ℤ) : ℚ)
              * (eps / (nsr : ℚ))
          ≤ max ((k + 1 : ℕ) : ℚ) (eps / (nsr : ℚ))
        rw [htr]
        have hfl : (⌊((k : ℚ) - s.eonns) / (eps / (nsr : ℚ))⌋ : ℚ)
            ≤ ((k : ℚ) - s.eonns) / (eps / (nsr : ℚ)) := Int.floor_le _
        have hmul : (⌊((k : ℚ) - s.eonns) / (eps / (nsr : ℚ))⌋ : ℚ) * (eps / (nsr : ℚ))
            ≤ (((k : ℚ) - s.eonns) / (eps / (nsr : ℚ))) * (eps / (nsr : ℚ)) :=
          mul_le_mul_of_nonneg_right hfl hepns_pos.le
        have hcancel : (((k : ℚ) - s.eonns) / (eps / (nsr : ℚ))) * (eps / (nsr : ℚ))
            = (k : ℚ) - s.eonns := div_mul_cancel₀ _ hepns_pos.ne'
        have hk1 : (k : ℚ) ≤ ((k + 1 : ℕ) : ℚ) := by push_cast; linarith
        have hmax : ((k + 1 : ℕ) : ℚ) ≤ max ((k + 1 : ℕ) : ℚ) (eps / (nsr : ℚ)) :=
          le_max_left _ _
        rw [hcancel] at hmul
        linarith
    · rw [hunf, kernel_sched_step_skip eps (eps / (nsr : ℚ)) k s h]
      refine ⟨ih1, le_trans ih2 (max_le_max ?_ (le_refl _))⟩
      push_cast
      linarith

/-- One kernel epoch never decreases either scheduling counter of an edge,
under the driver and launcher guarantees on the per-sample values. -/
lemma sched_after_step_le (eps : ℚ) (nsr : ℕ) (heps : 0 < eps)
    (hnsr : 1 ≤ nsr) (k : ℕ) :
    (sched_after eps (eps / (nsr : ℚ)) k).eons
        ≤ (sched_after eps (eps / (nsr : ℚ)) (k + 1)).eons ∧
      (sched_after eps (eps / (nsr : ℚ)) k).eonns
        ≤ (sched_after eps (eps / (nsr : ℚ)) (k + 1)).eonns := by
  have hnsrQ : (1 : ℚ) ≤ (nsr : ℚ) := by exact_mod_cast hnsr
  have hepns_pos : 0 < eps / (nsr : ℚ) := div_pos heps (lt_of_lt_of_le one_pos hnsrQ)
  have hepns_le : eps / (nsr : ℚ) ≤ eps := div_le_self heps.le hnsrQ
  obtain ⟨inv1, inv2⟩ := sched_after_invariant eps nsr heps hnsr k
  have hunf : sched_after eps (eps / (nsr : ℚ)) (k + 1)
      = kernel_sched_step eps (eps / (nsr : ℚ)) k
          (sched_after eps (eps / (nsr : ℚ)) k) := rfl
  set s := sched_after eps (eps / (nsr : ℚ)) k with hs
  by_cases h : s.eons ≤ (k : ℚ)
  · rw [hunf, kernel_sched_step_fired eps (eps / (nsr : ℚ)) k s h]
    have hek : eps / (nsr : ℚ) ≤ (k : ℚ) := le_trans hepns_le (le_trans inv1 h)
    have hsk : s.eonns ≤ (k : ℚ) := by
      have hmx := max_eq_left hek
      rw [hmx] at inv2
      exact inv2
    have hq : (0 : ℚ) ≤ ((k : ℚ) - s.eonns) / (eps / (nsr : ℚ)) :=
      div_nonneg (by linarith) hepns_pos.le
    have htr : truncToZero (((k : ℚ) - s.eonns) / (eps / (nsr : ℚ)))
        = ⌊((k : ℚ) - s.eonns) / (eps / (nsr : ℚ))⌋ := if_pos hq
    have hfl0 : (0 : ℚ) ≤ (⌊((k : ℚ) - s.eonns) / (eps / (nsr : ℚ))⌋ : ℚ) := by
      have hz : (0 : ℤ) ≤ ⌊((k : ℚ) - s.eonns) / (eps / (nsr : ℚ))⌋ :=
        Int.le_floor.mpr (by exact_mod_cast hq)
      exact_mod_cast hz
    constructor
    · show s.eons ≤ s.eons + eps
      linarith
    · show s.eonns ≤ s.eonns
          + ((truncToZero (((k : ℚ) - s.eonns) / (eps / (nsr : ℚ))) : ℤ) : ℚ)
            * (eps / (nsr : ℚ))
      rw [htr]
      nlinarith
  · rw [hunf, kernel_sched_step_skip eps (eps / (nsr : ℚ)) k s h]
    exact ⟨le_refl _, le_refl _⟩

/-- C3: for every edge, when epochs 0, 1, 2, ... are run by the driver with
the counters initialized to epochs_per_sample and epochs_per_negative_sample
(the latter derived as epochs_per_sample / negative_sample_rate, per
algo.h lines 250-261), both epoch_of_next_sample and
epoch_of_next_negative_sample are monotonically non-decreasing across
epochs, starting from those initial values. The hypotheses are the
pipeline's guarantees: epochs_per_sample is positive and
negative_sample_rate is a positive integer. -/
theorem sched_counters_monotone (eps : ℚ) (nsr k1 k2 : ℕ)
    (heps : 0 < eps) (hnsr : 1 ≤ nsr) (hk : k1 ≤ k2) :
    (sched_after eps (eps / (nsr : ℚ)) 0).eons = eps ∧
      (sched_after eps (eps / (nsr : ℚ)) 0).eonns = eps / (nsr : ℚ) ∧
      (sched_after eps (eps / (nsr : ℚ)) k1).eons
          ≤ (sched_after eps (eps / (nsr : ℚ)) k2).eons ∧
      (sched_after eps (eps / (nsr : ℚ)) k1).eonns
          ≤ (sched_after eps (eps / (nsr : ℚ)) k2).eonns := by
  refine ⟨rfl, rfl, ?_⟩
  induction k2, hk using Nat.le_induction with
  | base => exact ⟨le_refl _, le_refl _⟩
  | succ m hm ih =>
    obtain ⟨ih1, ih2⟩ := ih
    obtain ⟨st1, st2⟩ := sched_after_step_le eps nsr heps hnsr m
    exact ⟨le_trans ih1 st1, le_trans ih2 st2⟩

/-- C3 witness: the scheduling-counter theorem applied at
epochs_per_sample = 1, negative_sample_rate = 5, comparing the states after
1 and after 3 epochs. -/
theorem sched_counters_monotone_witness :
    (0 : ℚ) < 1 ∧ (1 : ℕ) ≤ 5 ∧ (1 : ℕ) ≤ 3 ∧
      ((sched_after 1 (1 / ((5 : ℕ) : ℚ)) 0).eons = 1 ∧
        (sched_after 1 (1 / ((5 : ℕ) : ℚ)) 0).eonns = 1 / ((5 : ℕ) : ℚ) ∧
        (sched_after 1 (1 / ((5 : ℕ) : ℚ)) 1).eons
            ≤ (sched_after 1 (1 / ((5 : ℕ) : ℚ)) 3).eons ∧
        (sched_after 1 (1 / ((5 : ℕ) : ℚ)) 1).eonns
            ≤ (sched_after 1 (1 / ((5 : ℕ) : ℚ)) 3).eonns) :=
  ⟨by norm_num, by norm_num, by norm_num,
    sched_counters_monotone 1 5 1 3 (by norm_num) (by norm_num) (by norm_num)⟩

/-- C4 counterexample: the launcher does modify a caller-supplied edge-list
array. With weights [0.001, 1.0] and n_epochs = 100 the threshold is 0.01,
and the pruning step overwrites the 0.001 entry of the input weights array
with 0 in place, so the input COO after the launcher differs from the one
supplied. -/
theorem edge_list_mutated_by_pruning :
    launcher_input_after { rows := [0, 0], cols := [1, 2], vals := [1/1000, 1] } 100
        ≠ { rows := [0, 0], cols := [1, 2], vals := [1/1000, 1] } ∧
      (launcher_input_after
          { rows := [0, 0], cols := [1, 2], vals := [1/1000, 1] } 100).vals
        = [0, 1] := by
  have hv : (launcher_input_after
      { rows := [0, 0], cols := [1, 2], vals := [1/1000, 1] } 100).vals = [0, 1] := by
    show prune_weights [1/1000, 1] 100 = [0, 1]
    norm_num [prune_weights, max_def]
  refine ⟨?_, hv⟩
  intro hEq
  rw [hEq] at hv
  simp only [List.cons.injEq] at hv
  exact absurd hv.1 (by norm_num)

/-- C4 amended: the head and tail index arrays of the caller-supplied edge
list are read-only, and so is everything downstream of the pruning step, but
the weights array itself is overwritten in place by the launcher: every
entry strictly below max_weight / n_epochs becomes 0, every other entry is
left unchanged. -/
theorem launcher_input_frame (incoo : COO) (n_epochs : ℕ) (i : ℕ)
    (hi : i < incoo.vals.length) :
    (launcher_input_after incoo n_epochs).rows = incoo.rows ∧
      (launcher_input_after incoo n_epochs).cols = incoo.cols ∧
      (launcher_input_after incoo n_epochs).vals.length = incoo.vals.length ∧
      (launcher_input_after incoo n_epochs).vals.getD i 0
        = (if incoo.vals.getD i 0
              < (incoo.vals.foldl max (incoo.vals.headD 0)) / (n_epochs : ℚ) then 0
           else incoo.vals.getD i 0) := by
  refine ⟨rfl, rfl, by simp [launcher_input_after, prune_weights], ?_⟩
  have hlen : i < (launcher_input_after incoo n_epochs).vals.length := by
    simpa [launcher_input_after, prune_weights] using hi
  rw [List.getD_eq_getElem _ 0 hlen, List.getD_eq_getElem _ 0 hi]
  simp only [launcher_input_after, prune_weights, List.getElem_map]

/-- C4 witness: the frame theorem applied to the COO with weights
[0.001, 1.0] at index 0 with n_epochs = 100, where the entry is zeroed. -/
theorem launcher_input_frame_witness :
    (0 : ℕ) < ([(1 : ℚ)/1000, 1]).length ∧
      ((launcher_input_after
            { rows := [0, 0], cols := [1, 2], vals := [1/1000, 1] } 100).rows
          = [0, 0] ∧
        (launcher_input_after
            { rows := [0, 0], cols := [1, 2], vals := [1/1000, 1] } 100).cols
          = [1, 2] ∧
        (launcher_input_after
            { rows := [0, 0], cols := [1, 2], vals := [1/1000, 1] } 100).vals.length
          = ([(1 : ℚ)/1000, 1]).length ∧
        (launcher_input_after
              { rows := [0, 0], cols := [1, 2], vals := [1/1000, 1] } 100).vals.getD 0 0
          = (if ([(1 : ℚ)/1000, 1]).getD 0 0
                < (([(1 : ℚ)/1000, 1]).foldl max (([(1 : ℚ)/1000, 1]).headD 0))
                    / ((100 : ℕ) : ℚ) then 0
             else ([(1 : ℚ)/1000, 1]).getD 0 0)) :=
  ⟨by norm_num,
    launcher_input_frame { rows := [0, 0], cols := [1, 2], vals := [1/1000, 1] } 100 0
      (by norm_num)⟩

/-- C5: in a negative-sampling draw whose squared distance is 0, the kernel
either skips the draw entirely when the candidate t equals the edge head
vertex j (no embedding update), or adds the constant displacement 4 * alpha
to every dimension of the current row; the function is total, so no error is
raised in either case. -/
theorem negative_sample_zero_dist_policy (powfn : ℚ → ℚ → ℚ) (a b gamma alpha : ℚ)
    (j t : ℤ) (current neg : List ℚ) (h0 : rdist current neg = 0) :
    (j = t → negative_sample_step powfn a b gamma alpha j t current neg = current) ∧
      (j ≠ t → ∀ i : ℕ, i < current.length → i < neg.length →
        (negative_sample_step powfn a b gamma alpha j t current neg).getD i 0
          = current.getD i 0 + 4 * alpha) := by
  have hle : rdist current neg ≤ 0 := le_of_eq h0
  have hnotpos : ¬ rdist current neg > 0 := by rw [h0]; norm_num
  constructor
  · intro hjt
    show (if rdist current neg ≤ 0 ∧ j = t then current
          else List.zipWith
            (fun c n => c + repulsive_grad_d
              (if rdist current neg > 0 then
                repulsive_grad powfn (rdist current neg) gamma a b
               else 0) c n * alpha) current neg) = current
    rw [if_pos ⟨hle, hjt⟩]
  · intro hjt i hi1 hi2
    have hcond : ¬ (rdist current neg ≤ 0 ∧ j = t) := fun hp => hjt hp.2
    have hstep : negative_sample_step powfn a b gamma alpha j t current neg
        = List.zipWith
            (fun c n => c + repulsive_grad_d
              (if rdist current neg > 0 then
                repulsive_grad powfn (rdist current neg) gamma a b
               else 0) c n * alpha) current neg := by
      show (if rdist current neg ≤ 0 ∧ j = t then current else _) = _
      rw [if_neg hcond]
    rw [hstep]
    have hlz : i < (List.zipWith
        (fun c n => c + repulsive_grad_d
          (if rdist current neg > 0 then
            repulsive_grad powfn (rdist current neg) gamma a b
           else 0) c n * alpha) current neg).length := by
      rw [List.length_zipWith]
      exact lt_min hi1 hi2
    rw [List.getD_eq_getElem _ 0 hlz, List.getD_eq_getElem _ 0 hi1,
      List.getElem_zipWith]
    have hcoeff : (if rdist current neg > 0 then
        repulsive_grad powfn (rdist current neg) gamma a b else 0) = 0 :=
      if_neg hnotpos
    simp only [hcoeff]
    unfold repulsive_grad_d
    rw [if_neg (by norm_num : ¬ (0 : ℚ) > 0)]

/-- C5 witness: the zero-distance policy theorem applied with coincident
rows [2, 3], head vertex 0 and candidate 1, unit parameters: dimension 0 of
the current row gains exactly 4 * 1. -/
theorem negative_sample_zero_dist_policy_witness :
    rdist [2, 3] [2, 3] = 0 ∧
      (negative_sample_step (fun _ _ => 0) 1 1 1 1 0 1 [2, 3] [2, 3]).getD 0 0
        = ([(2 : ℚ), 3]).getD 0 0 + 4 * 1 :=
  ⟨by norm_num [rdist, List.zipWith],
    (negative_sample_zero_dist_policy (fun _ _ => 0) 1 1 1 1 0 1 [2, 3] [2, 3]
        (by norm_num [rdist, List.zipWith])).2
      (by norm_num) 0 (by norm_num) (by norm_num)⟩

/-- C7: for every attractive update event, in fit mode (move_other true) the
displacement added to the tail row in each dimension is exactly the negation
of the displacement added to the head row, and in transform mode
(move_other false) the tail row is returned untouched. -/
theorem attractive_update_antisymmetric (powfn : ℚ → ℚ → ℚ) (a b alpha : ℚ)
    (move_other : Bool) (current other : List ℚ) (i : ℕ)
    (hi1 : i < current.length) (hi2 : i < other.length) :
    (move_other = true →
      (attractive_update powfn a b alpha move_other current other).2.getD i 0
          - other.getD i 0
        = -((attractive_update powfn a b alpha move_other current other).1.getD i 0
            - current.getD i 0)) ∧
      (move_other = false →
        (attractive_update powfn a b alpha move_other current other).2 = other) := by
  constructor
  · intro hmo
    subst hmo
    have h1 : (attractive_update powfn a b alpha true current other).1
        = List.zipWith
            (fun c o => c + attractive_grad_d
              (if rdist current other > 0 then
                attractive_grad powfn (rdist current other) a b
               else 0) c o * alpha) current other := rfl
    have h2 : (attractive_update powfn a b alpha true current other).2
        = List.zipWith
            (fun c o => o + -(attractive_grad_d
              (if rdist current other > 0 then
                attractive_grad powfn (rdist current other) a b
               else 0) c o) * alpha) current other := rfl
    rw [h1, h2]
    have hl1 : i < (List.zipWith
        (fun c o => o + -(attractive_grad_d
          (if rdist current other > 0 then
            attractive_grad powfn (rdist current other) a b
           else 0) c o) * alpha) current other).length := by
      rw [List.length_zipWith]; exact lt_min hi1 hi2
    have hl2 : i < (List.zipWith
        (fun c o => c + attractive_grad_d
          (if rdist current other > 0 then
            attractive_grad powfn (rdist current other) a b
           else 0) c o * alpha) current other).length := by
      rw [List.length_zipWith]; exact lt_min hi1 hi2
    rw [List.getD_eq_getElem _ 0 hl1, List.getD_eq_getElem _ 0 hl2,
      List.getD_eq_getElem _ 0 hi1, List.getD_eq_getElem _ 0 hi2,
      List.getElem_zipWith, List.getElem_zipWith]
    ring
  · intro hmo
    subst hmo
    rfl

/-- C7 witness: the anti-symmetry theorem applied in fit mode to the rows
[0, 0] and [1, 2] at dimension 0. -/
theorem attractive_update_antisymmetric_witness :
    (0 : ℕ) < ([(0 : ℚ), 0]).length ∧ (0 : ℕ) < ([(1 : ℚ), 2]).length ∧
      (attractive_update (fun _ _ => 0) 1 1 1 true [0, 0] [1, 2]).2.getD 0 0
          - ([(1 : ℚ), 2]).getD 0 0
        = -((attractive_update (fun _ _ => 0) 1 1 1 true [0, 0] [1, 2]).1.getD 0 0
            - ([(0 : ℚ), 0]).getD 0 0) :=
  ⟨by norm_num, by norm_num,
    (attractive_update_antisymmetric (fun _ _ => 0) 1 1 1 true [0, 0] [1, 2] 0
        (by norm_num) (by norm_num)).1 rfl⟩

/-- Auxiliary: the initial accumulator never exceeds a max fold. -/
lemma le_foldl_max_init (l : List ℚ) (a : ℚ) : a ≤ l.foldl max a := by
  induction l generalizing a with
  | nil => exact le_refl _
  | cons x t ih =>
    rw [List.foldl_cons]
    exact le_trans (le_max_left a x) (ih (max a x))

/-- Auxiliary: every member of a list is bounded by a max fold over it. -/
lemma mem_le_foldl_max (l : List ℚ) (a x : ℚ) (hx : x ∈ l) : x ≤ l.foldl max a := by
  induction l generalizing a with
  | nil => cases hx
  | cons y t ih =>
    rw [List.foldl_cons]
    rcases List.mem_cons.mp hx with h | h
    · subst h
      exact le_trans (le_max_right a x) (le_foldl_max_init t (max a x))
    · exact ih (max a y) h

/-- Auxiliary: a max fold yields the accumulator or a member of the list. -/
lemma foldl_max_mem (l : List ℚ) (a : ℚ) : l.foldl max a = a ∨ l.foldl max a ∈ l := by
  induction l generalizing a with
  | nil => exact Or.inl rfl
  | cons y t ih =>
    rw [List.foldl_cons]
    rcases ih (max a y) with h | h
    · rcases max_choice a y with hm | hm
      · exact Or.inl (by rw [h, hm])
      · exact Or.inr (by rw [h, hm]; exact List.mem_cons_self y t)
    · exact Or.inr (List.mem_cons_of_mem y h)

/-- Auxiliary: the max fold seeded with the head computes the maximum of a
list, for any value that is a member and an upper bound. -/
lemma foldl_max_eq_of_isMax (l : List ℚ) (wm : ℚ) (hmem : wm ∈ l)
    (hub : ∀ x ∈ l, x ≤ wm) : l.foldl max (l.headD 0) = wm := by
  have hhead : l.headD 0 ∈ l := by
    cases l with
    | nil => cases hmem
    | cons y t => exact List.mem_cons_self y t
  apply le_antisymm
  · rcases foldl_max_mem l (l.headD 0) with h | h
    · rw [h]; exact hub _ hhead
    · exact hub _ h
  · exact mem_le_foldl_max l _ wm hmem

/-- C8: the epoch schedule builder maps each weight w of a weight list whose
maximum is wm to n_epochs / v where v = n_epochs * (w / wm) when v is
positive, and to the sentinel -1 otherwise, preserving the length of the
list. -/
theorem make_epochs_per_sample_formula (weights : List ℚ) (n_epochs : ℕ) (wm : ℚ)
    (i : ℕ) (hmem : wm ∈ weights) (hub : ∀ x ∈ weights, x ≤ wm)
    (hi : i < weights.length) :
    (make_epochs_per_sample weights n_epochs).length = weights.length ∧
      (make_epochs_per_sample weights n_epochs).getD i 0
        = (if (n_epochs : ℚ) * (weights.getD i 0 / wm) > 0 then
            (n_epochs : ℚ) / ((n_epochs : ℚ) * (weights.getD i 0 / wm))
          else -1) := by
  have hwm : weights.foldl max (weights.headD 0) = wm :=
    foldl_max_eq_of_isMax weights wm hmem hub
  have hlen : (make_epochs_per_sample weights n_epochs).length = weights.length := by
    simp [make_epochs_per_sample]
  refine ⟨hlen, ?_⟩
  rw [List.getD_eq_getElem _ 0 (by rw [hlen]; exact hi), List.getD_eq_getElem _ 0 hi]
  simp only [make_epochs_per_sample, List.getElem_map]
  simp only [hwm]

/-- C8 witness: the schedule-builder theorem applied to the weight list
[0.5, 1] with maximum 1 and n_epochs = 4 at index 0. -/
theorem make_epochs_per_sample_formula_witness :
    (1 : ℚ) ∈ [(1 : ℚ)/2, 1] ∧ (0 : ℕ) < ([(1 : ℚ)/2, 1]).length ∧
      ((make_epochs_per_sample [1/2, 1] 4).length = ([(1 : ℚ)/2, 1]).length ∧
        (make_epochs_per_sample [1/2, 1] 4).getD 0 0
          = (if ((4 : ℕ) : ℚ) * (([(1 : ℚ)/2, 1]).getD 0 0 / 1) > 0 then
              ((4 : ℕ) : ℚ) / (((4 : ℕ) : ℚ) * (([(1 : ℚ)/2, 1]).getD 0 0 / 1))
            else -1)) :=
  ⟨by norm_num, by norm_num,
    make_epochs_per_sample_formula [1/2, 1] 4 1 0 (by norm_num)
      (by
        intro x hx
        rcases List.mem_cons.mp hx with h | h
        · rw [h]; norm_num
        · rcases List.mem_cons.mp h with h2 | h2
          · rw [h2]
          · cases h2)
      (by norm_num)⟩

/-- C9: every optimize_layout call issued by the launcher runs in fit mode:
the launcher passes the same embedding buffer as head and tail, the pointer
comparison therefore yields move_other = true, and the attractive update of
the kernel then takes the branch that displaces the tail row as well — the
transform-mode branch that holds the tail fixed is unreachable from this
entry point. -/
theorem launcher_always_fit_mode (embedding : ℕ) (powfn : ℚ → ℚ → ℚ)
    (a b alpha : ℚ) (current other : List ℚ) :
    launcher_move_other embedding = true ∧
      (attractive_update powfn a b alpha (launcher_move_other embedding)
          current other).2
        = List.zipWith
            (fun c o => o + -(attractive_grad_d
              (if rdist current other > 0 then
                attractive_grad powfn (rdist current other) a b
               else 0) c o) * alpha) current other := by
  have h : launcher_move_other embedding = true := by
    simp [launcher_move_other, optimize_layout_move_other]
  refine ⟨h, ?_⟩
  rw [h]
  exact rfl

end UMAPAlgo
